import Mathlib

/-!
Shallow embedding of the `gymnasium` space protocol restricted to the two
variants in scope: the `MultiBinary` leaf space
(`src/gymnasium/spaces/multi_binary.py`) and the `Dict` composite space
(`src/gymnasium/spaces/dict.py`).

Python values, dictionaries and the JSON-able encoding are embedded as
inductive types; fallible Python code (raising `ValueError`, `TypeError`,
`AssertionError`, `KeyError`, `IndexError`, `StopIteration`) is embedded as
`Except Exn`.  NumPy arrays are embedded as a shape (list of axis lengths)
together with the row-major flat list of entries, the representation on which
`np.where`, `astype`, `tolist` and `np.asarray` act.
-/

namespace GymSpec

/-- Dictionary keys as they occur at runtime: the repository's type hints say
`str`, but the `Dict` constructor deliberately supports non-comparable key
mixes (e.g. `int` together with `str`), so both kinds are embedded. -/
inductive DKey where
  | kint (n : Int)
  | kstr (s : String)
deriving DecidableEq, Repr

/-- `MultiBinary.n`: the constructor stores either a plain Python `int` (when
given an integer) or a tuple of `int`s (when given a sequence / array); the
two are distinguished because `MultiBinary.__eq__` compares `self.n` with
Python `==`, under which `3 != (3,)`. -/
inductive MBn where
  | scalar (n : Int)
  | tup (l : List Int)
deriving DecidableEq, Repr

/-- `self.shape` of a `MultiBinary`: `(n,)` for an integer `n`, the tuple
itself otherwise (`MultiBinary.__init__` passes `input_n` to `Space.__init__`). -/
def MBn.shape : MBn → List Int
  | .scalar n => [n]
  | .tup l => l

/-- The shape as a list of naturals (a NumPy shape); coincides with
`MBn.shape` on well-formed spaces, whose entries are positive. -/
def MBn.shapeN (n : MBn) : List Nat := n.shape.map Int.toNat

/-- The closed space hierarchy in scope: `MultiBinary` leaves and `Dict`
composites.  `Dict.spaces` is a Python `dict` from key to child space,
embedded as an association list in storage order. -/
inductive GSpace where
  | mb (n : MBn)
  | dict (spaces : List (DKey × GSpace))

/-- Sample values: a NumPy `int8` array (shape plus row-major data) for a
leaf, a Python `dict` from key to child sample for a composite. -/
inductive SVal where
  | arr (shape : List Nat) (data : List Int)
  | dict (entries : List (DKey × SVal))

/-- JSON-able values produced and consumed by `to_jsonable`/`from_jsonable`:
plain integers, lists and dictionaries. -/
inductive Json where
  | jint (n : Int)
  | jarr (xs : List Json)
  | jobj (entries : List (DKey × Json))

/-- The Python exceptions raised by the code under scrutiny. -/
inductive Exn where
  | typeError (info : String)
  | valueError (info : String)
  | assertionError (info : String)
  | keyError
  | indexError
  | stopIteration
deriving DecidableEq, Repr

mutual

def GSpace.decEq : (a b : GSpace) → Decidable (a = b)
  | .mb n, .mb m =>
      if h : n = m then isTrue (by rw [h])
      else isFalse (by intro hh; injection hh; contradiction)
  | .mb _, .dict _ => isFalse (by intro h; cases h)
  | .dict _, .mb _ => isFalse (by intro h; cases h)
  | .dict s, .dict t =>
      match GSpace.decEqList s t with
      | isTrue h => isTrue (by rw [h])
      | isFalse h => isFalse (by intro hh; injection hh; contradiction)

def GSpace.decEqList : (s t : List (DKey × GSpace)) → Decidable (s = t)
  | [], [] => isTrue rfl
  | [], _ :: _ => isFalse (by intro h; cases h)
  | _ :: _, [] => isFalse (by intro h; cases h)
  | (k, v) :: s, (k', v') :: t =>
      if hk : k = k' then
        match GSpace.decEq v v', GSpace.decEqList s t with
        | isTrue h2, isTrue h3 => isTrue (by rw [hk, h2, h3])
        | isFalse h2, _ => isFalse (by
            intro hh; injection hh with h1 h4; injection h1; contradiction)
        | _, isFalse h3 => isFalse (by intro hh; injection hh with h1 h4; contradiction)
      else isFalse (by intro hh; injection hh with h1 h4; injection h1; contradiction)

end

instance : DecidableEq GSpace := GSpace.decEq

mutual

def SVal.decEq : (a b : SVal) → Decidable (a = b)
  | .arr sh d, .arr sh' d' =>
      if h : sh = sh' ∧ d = d' then isTrue (by rw [h.1, h.2])
      else isFalse (by intro hh; injection hh; exact h ⟨‹_›, ‹_›⟩)
  | .arr _ _, .dict _ => isFalse (by intro h; cases h)
  | .dict _, .arr _ _ => isFalse (by intro h; cases h)
  | .dict s, .dict t =>
      match SVal.decEqList s t with
      | isTrue h => isTrue (by rw [h])
      | isFalse h => isFalse (by intro hh; injection hh; contradiction)

def SVal.decEqList : (s t : List (DKey × SVal)) → Decidable (s = t)
  | [], [] => isTrue rfl
  | [], _ :: _ => isFalse (by intro h; cases h)
  | _ :: _, [] => isFalse (by intro h; cases h)
  | (k, v) :: s, (k', v') :: t =>
      if hk : k = k' then
        match SVal.decEq v v', SVal.decEqList s t with
        | isTrue h2, isTrue h3 => isTrue (by rw [hk, h2, h3])
        | isFalse h2, _ => isFalse (by
            intro hh; injection hh with h1 h4; injection h1; contradiction)
        | _, isFalse h3 => isFalse (by intro hh; injection hh with h1 h4; contradiction)
      else isFalse (by intro hh; injection hh with h1 h4; injection h1; contradiction)

end

instance : DecidableEq SVal := SVal.decEq

mutual

def Json.decEq : (a b : Json) → Decidable (a = b)
  | .jint n, .jint m =>
      if h : n = m then isTrue (by rw [h])
      else isFalse (by intro hh; injection hh; contradiction)
  | .jint _, .jarr _ => isFalse (by intro h; cases h)
  | .jint _, .jobj _ => isFalse (by intro h; cases h)
  | .jarr _, .jint _ => isFalse (by intro h; cases h)
  | .jarr _, .jobj _ => isFalse (by intro h; cases h)
  | .jobj _, .jint _ => isFalse (by intro h; cases h)
  | .jobj _, .jarr _ => isFalse (by intro h; cases h)
  | .jarr s, .jarr t =>
      match Json.decEqArr s t with
      | isTrue h => isTrue (by rw [h])
      | isFalse h => isFalse (by intro hh; injection hh; contradiction)
  | .jobj s, .jobj t =>
      match Json.decEqObj s t with
      | isTrue h => isTrue (by rw [h])
      | isFalse h => isFalse (by intro hh; injection hh; contradiction)

def Json.decEqArr : (s t : List Json) → Decidable (s = t)
  | [], [] => isTrue rfl
  | [], _ :: _ => isFalse (by intro h; cases h)
  | _ :: _, [] => isFalse (by intro h; cases h)
  | v :: s, v' :: t =>
      match Json.decEq v v', Json.decEqArr s t with
      | isTrue h2, isTrue h3 => isTrue (by rw [h2, h3])
      | isFalse h2, _ => isFalse (by intro hh; injection hh; contradiction)
      | _, isFalse h3 => isFalse (by intro hh; injection hh; contradiction)

def Json.decEqObj : (s t : List (DKey × Json)) → Decidable (s = t)
  | [], [] => isTrue rfl
  | [], _ :: _ => isFalse (by intro h; cases h)
  | _ :: _, [] => isFalse (by intro h; cases h)
  | (k, v) :: s, (k', v') :: t =>
      if hk : k = k' then
        match Json.decEq v v', Json.decEqObj s t with
        | isTrue h2, isTrue h3 => isTrue (by rw [hk, h2, h3])
        | isFalse h2, _ => isFalse (by
            intro hh; injection hh with h1 h4; injection h1; contradiction)
        | _, isFalse h3 => isFalse (by intro hh; injection hh with h1 h4; contradiction)
      else isFalse (by intro hh; injection hh with h1 h4; injection h1; contradiction)

end

instance : DecidableEq Json := Json.decEq

def Except.decEq {ε α : Type} [DecidableEq ε] [DecidableEq α] :
    (a b : Except ε α) → Decidable (a = b)
  | .ok a, .ok b =>
      if h : a = b then isTrue (by rw [h])
      else isFalse (by intro hh; injection hh; contradiction)
  | .error e, .error f =>
      if h : e = f then isTrue (by rw [h])
      else isFalse (by intro hh; injection hh; contradiction)
  | .ok _, .error _ => isFalse (by intro h; cases h)
  | .error _, .ok _ => isFalse (by intro h; cases h)

instance {ε α : Type} [DecidableEq ε] [DecidableEq α] : DecidableEq (Except ε α) :=
  Except.decEq

/-- First-match lookup in an association list: Python `d[k]` for the
embedded dictionaries (whose keys are unique in every real Python `dict`). -/
def lookupKey (k : DKey) : List (DKey × α) → Option α
  | [] => none
  | (k', v) :: rest => if k' = k then some v else lookupKey k rest

/-- The key column of an embedded dictionary. -/
def keysOf (l : List (DKey × α)) : List DKey := l.map Prod.fst

/-- Boolean key membership. -/
def keyMem (k : DKey) (ks : List DKey) : Bool := ks.any (fun k' => k' = k)

/-- Python `a.keys() == b.keys()`: dictionary key views compare as sets. -/
def keySetEq (a b : List DKey) : Bool :=
  a.all (fun k => keyMem k b) && b.all (fun k => keyMem k a)

/-- Boolean key-uniqueness (the invariant of every real Python `dict`). -/
def keysNodup : List DKey → Bool
  | [] => true
  | k :: ks => !(keyMem k ks) && keysNodup ks

/-- Sequential `Except`-valued map, the embedding of a Python loop or
comprehension that may raise at any element. -/
def mapME (f : α → Except Exn β) : List α → Except Exn (List β)
  | [] => .ok []
  | a :: l => do
      let b ← f a
      let bs ← mapME f l
      .ok (b :: bs)

def DKey.isInt : DKey → Bool
  | .kint _ => true
  | .kstr _ => false

def DKey.isStr : DKey → Bool
  | .kint _ => false
  | .kstr _ => true

/-- Lexicographic comparison of character lists: the order Python uses on
`str` (code-point lexicographic). -/
def charListLE : List Char → List Char → Bool
  | [], _ => true
  | _ :: _, [] => false
  | c :: cs, d :: ds => if c = d then charListLE cs ds else decide (c < d)

/-- Python `<=` on strings. -/
def strLE (a b : String) : Bool := charListLE a.data b.data

def charListLE_total : ∀ a b : List Char, charListLE a b = true ∨ charListLE b a = true
  | [], _ => Or.inl rfl
  | _ :: _, [] => Or.inr rfl
  | c :: cs, d :: ds => by
      by_cases h : c = d
      · subst h
        simpa [charListLE] using charListLE_total cs ds
      · rcases lt_or_gt_of_ne h with hlt | hgt
        · left; simp [charListLE, h, hlt]
        · right; simp [charListLE, Ne.symm h, hgt]

def charListLE_trans :
    ∀ a b c : List Char, charListLE a b = true → charListLE b c = true →
      charListLE a c = true
  | [], _, _ => fun _ _ => rfl
  | _ :: _, [], _ => fun hab _ => by cases hab
  | _ :: _, _ :: _, [] => fun _ hbc => by cases hbc
  | x :: xs, y :: ys, z :: zs => fun hab hbc => by
      by_cases hxy : x = y
      · subst hxy
        by_cases hyz : x = z
        · subst hyz
          simp only [charListLE, if_pos rfl] at hab hbc ⊢
          exact charListLE_trans xs ys zs hab hbc
        · simp only [charListLE, if_pos rfl] at hab
          simp only [charListLE, if_neg hyz] at hbc ⊢
          exact hbc
      · by_cases hyz : y = z
        · subst hyz
          simp only [charListLE, if_neg hxy] at hab ⊢
          exact hab
        · simp only [charListLE, if_neg hxy, decide_eq_true_eq] at hab
          simp only [charListLE, if_neg hyz, decide_eq_true_eq] at hbc
          have hxz : x < z := lt_trans hab hbc
          simp [charListLE, ne_of_lt hxz, hxz]

/-- Python `<=` on keys, totalised: `int` keys compare numerically, `str`
keys lexicographically.  The cross-kind rows are arbitrary because Python
raises `TypeError` there; `sortPairs` only ever uses this comparison on key
lists where all keys have the same kind (see `dictInitMapping`). -/
def dkeyLE : DKey → DKey → Bool
  | .kint a, .kint b => a ≤ b
  | .kstr a, .kstr b => strLE a b
  | .kint _, .kstr _ => true
  | .kstr _, .kint _ => false

/-- `sorted(spaces.items())` succeeds exactly when the keys are mutually
comparable, i.e. all `int` or all `str`; a mixed list always raises
`TypeError` while sorting. -/
def keysComparable (ks : List DKey) : Bool :=
  ks.all DKey.isInt || ks.all DKey.isStr

/-- The order on `(key, space)` pairs used by `sorted(spaces.items())`:
items compare by their first component (keys are unique). -/
def keyOrder (a b : DKey × GSpace) : Prop := dkeyLE a.1 b.1 = true

instance : DecidableRel keyOrder := fun _ _ => inferInstanceAs (Decidable (_ = true))

instance : IsTotal (DKey × GSpace) keyOrder :=
  ⟨fun a b => by
    obtain ⟨ka, _⟩ := a
    obtain ⟨kb, _⟩ := b
    unfold keyOrder
    cases ka <;> cases kb <;> simp only [dkeyLE, decide_eq_true_eq]
    · exact le_total _ _
    · trivial
    · trivial
    · exact charListLE_total _ _⟩

instance : IsTrans (DKey × GSpace) keyOrder :=
  ⟨fun a b c hab hbc => by
    obtain ⟨ka, _⟩ := a
    obtain ⟨kb, _⟩ := b
    obtain ⟨kc, _⟩ := c
    unfold keyOrder at hab hbc ⊢
    cases ka <;> cases kb <;> cases kc <;>
      simp only [dkeyLE, decide_eq_true_eq, Bool.false_eq_true] at hab hbc ⊢ <;>
      first
      | rfl
      | exact hab.elim
      | exact hbc.elim
      | exact le_trans hab hbc
      | exact charListLE_trans _ _ _ hab hbc⟩

/-- Stable sort of the items of a mapping by key: the model of Python's
`sorted(spaces.items())`. -/
def sortPairs (l : List (DKey × GSpace)) : List (DKey × GSpace) :=
  List.insertionSort keyOrder l

/-- `Dict.__init__` normalising a plain (non-`OrderedDict`) mapping input:
`spaces = dict(sorted(spaces.items()))`, falling back to the insertion order
when sorting raises `TypeError` on incomparable keys
(`src/gymnasium/spaces/dict.py`, lines 71-89). -/
def dictInitMapping (pairs : List (DKey × GSpace)) : List (DKey × GSpace) :=
  if keysComparable (keysOf pairs) then sortPairs pairs else pairs

mutual

/-- Structural equality of spaces.  `MultiBinary.__eq__` compares `self.n`
with Python `==` (so an `int` never equals a tuple); `Dict.__eq__` compares
`self.spaces` with Python `dict.__eq__`: equal sizes and, for every key of
the left dictionary, a (first) match in the right dictionary with an equal
value — which is order-insensitive. -/
def spaceEq : GSpace → GSpace → Bool
  | .mb n, .mb m => n = m
  | .dict s, .dict t => decide (s.length = t.length) && dictValuesEq s t
  | .mb _, .dict _ => false
  | .dict _, .mb _ => false

/-- `all(t[k] == v for k, v in s.items())`, the elementwise part of Python
`dict.__eq__`. -/
def dictValuesEq : List (DKey × GSpace) → List (DKey × GSpace) → Bool
  | [], _ => true
  | (k, v) :: rest, t =>
      (match lookupKey k t with
       | some w => spaceEq v w
       | none => false)
      && dictValuesEq rest t

end

mutual

/-- Construction invariants of a space, guaranteed by the constructors:
every `MultiBinary` has positive axis lengths (`assert (np.asarray(input_n)
> 0).all()`), and every `Dict` has unique child keys (they are keys of one
Python `dict`). -/
def wfSpace : GSpace → Bool
  | .mb n => n.shape.all (fun i => 0 < i)
  | .dict ch => keysNodup (keysOf ch) && wfChildren ch

def wfChildren : List (DKey × GSpace) → Bool
  | [] => true
  | (_, sp) :: rest => wfSpace sp && wfChildren rest

end

/-- Modelled from the spec: the external `RandomSource` collaborator
(`np.random.Generator`, not part of this repository).  Per the spec it
supplies uniform integers and uniform floats in `[0, 1)`.  `intDraw i` is the
value of `integers(low=0, high=2, ...)` at flat position `i` of the drawn
array — any value in `{0, 1}`; `unifDraw i` is the value of `random(...)` at
flat position `i` — any value in `[0, 1)`, zero included. -/
structure RandomSource where
  intDraw : Nat → Nat
  intDraw_lt : ∀ i, intDraw i < 2
  unifDraw : Nat → ℚ
  unifDraw_nonneg : ∀ i, 0 ≤ unifDraw i
  unifDraw_lt_one : ∀ i, unifDraw i < 1

/-- An integer NumPy ndarray as passed for `mask`: a dtype tag, a shape and
the row-major data (whose length is the shape product for every real
ndarray). -/
structure NdInt where
  dtype : String
  shape : List Nat
  data : List Int

/-- A floating-point NumPy ndarray as passed for `probability`; entries are
embedded as rationals. -/
structure NdFloat where
  dtype : String
  shape : List Nat
  data : List ℚ

/-- `x.astype(np.int8)` on a single entry: wrap into `[-128, 127]`. -/
def int8ofInt (x : Int) : Int := (x + 128) % 256 - 128

/-- `MultiBinary.sample(mask, probability)`
(`src/gymnasium/spaces/multi_binary.py`, lines 67-125): raises `ValueError`
when both arguments are supplied; with a mask, asserts dtype `int8`, the
space's shape and values in `{0, 1, 2}`, then returns
`np.where(mask == 2, self.np_random.integers(low=0, high=2, size=self.n,
dtype=self.dtype), mask.astype(self.dtype))`; with a probability, asserts
dtype `float64`, the space's shape and entries in `[0, 1]`, then returns
`(self.np_random.random(size=self.shape) <= probability).astype(self.dtype)`;
with neither, returns `integers(low=0, high=2, size=self.n)`.  Arrays are
flat row-major lists here; out-of-range reads (impossible for real ndarrays,
whose data length equals the shape product) default to `0`. -/
def mbSample (n : MBn) (rng : RandomSource) (mask : Option NdInt)
    (probability : Option NdFloat) : Except Exn (List Int) :=
  match mask, probability with
  | some _, some _ => .error (.valueError "Only one of mask or probability can be provided")
  | some m, none =>
      if m.dtype = "int8" then
        if m.shape = n.shapeN then
          if m.data.all (fun v => v = 0 || v = 1 || v = 2) then
            .ok ((List.range n.shapeN.prod).map (fun i =>
              if m.data.getD i 0 = 2 then (rng.intDraw i : Int)
              else int8ofInt (m.data.getD i 0)))
          else .error (.assertionError "All values of a mask should be 0, 1 or 2")
        else .error (.assertionError "The expected shape of the mask is the space shape")
      else .error (.assertionError "The expected dtype of the mask is np.int8")
  | none, some p =>
      if p.dtype = "float64" then
        if p.shape = n.shapeN then
          if p.data.all (fun q => 0 ≤ q && q ≤ 1) then
            .ok ((List.range n.shapeN.prod).map (fun i =>
              if rng.unifDraw i ≤ p.data.getD i 0 then 1 else 0))
          else .error
            (.assertionError "All values of the sample probability should be between 0 and 1")
        else .error (.assertionError "The expected shape of the probability is the space shape")
      else .error (.assertionError "The expected dtype of the probability is np.float64")
  | none, none => .ok ((List.range n.shapeN.prod).map (fun i => (rng.intDraw i : Int)))

/-- The all-zero generator state: every `integers(0, 2)` cell is `0` and
every `random()` cell is exactly `0.0` — a legitimate state, since
`random()` draws from the half-open interval `[0, 1)`. -/
def zeroRng : RandomSource where
  intDraw := fun _ => 0
  intDraw_lt := fun _ => by norm_num
  unifDraw := fun _ => 0
  unifDraw_nonneg := fun _ => le_refl 0
  unifDraw_lt_one := fun _ => by norm_num

/-- Runtime Python values passed to `MultiBinary.contains` and
`MultiBinary.__init__`: integers, floats, strings, lists, `None`, and
already-built integer ndarrays. -/
inductive PyVal where
  | pyint (n : Int)
  | pyfloat (q : ℚ)
  | pystr (s : String)
  | pylist (xs : List PyVal)
  | pynone
  | pyarr (shape : List Nat) (data : List Int)

/-- `type(x).__name__` for error messages. -/
def pyTypeName : PyVal → String
  | .pyint _ => "int"
  | .pyfloat _ => "float"
  | .pystr _ => "str"
  | .pylist _ => "list"
  | .pynone => "NoneType"
  | .pyarr _ _ => "ndarray"

/-- `isinstance(x, Sequence)` for the embedded values: Python lists and
strings are `collections.abc.Sequence`s; ndarrays, numbers and `None` are
not. -/
def isPySeq : PyVal → Bool
  | .pylist _ => true
  | .pystr _ => true
  | _ => false

/-- An element of a NumPy array built from heterogeneous Python data:
numeric entries (int or float, unified as rationals), strings, or `None`.
Elementwise `== 0` / `== 1` holds only for the numeric entries. -/
inductive PyScalar where
  | num (q : ℚ)
  | pstr (s : String)
  | pnone
deriving DecidableEq, Repr

mutual

/-- `np.array(x)`: scalars become 0-d arrays, an ndarray is copied, and a
list stacks the arrays of its elements — requiring all element shapes to be
equal, otherwise NumPy raises `ValueError` (inhomogeneous shape). -/
def npArrayOf : PyVal → Except Exn (List Nat × List PyScalar)
  | .pyint n => .ok ([], [.num n])
  | .pyfloat q => .ok ([], [.num q])
  | .pystr s => .ok ([], [.pstr s])
  | .pynone => .ok ([], [.pnone])
  | .pyarr sh d => .ok (sh, d.map (fun i => .num i))
  | .pylist xs => do
      let parts ← npArrayOfList xs
      match parts with
      | [] => .ok ([0], [])
      | (sh, _) :: _ =>
          if parts.all (fun p => p.1 = sh) then
            .ok (xs.length :: sh, (parts.map Prod.snd).flatten)
          else .error (.valueError "setting an array element with a sequence")

def npArrayOfList : List PyVal → Except Exn (List (List Nat × List PyScalar))
  | [] => .ok []
  | x :: xs => do
      let p ← npArrayOf x
      let ps ← npArrayOfList xs
      .ok (p :: ps)

end

/-- Elementwise `np.logical_or(x == 0, x == 1)` for one cell. -/
def PyScalar.isZeroOne : PyScalar → Bool
  | .num q => q = 0 || q = 1
  | .pstr _ => false
  | .pnone => false

/-- The coerced value `contains` goes on to test: a plain sequence is passed
through `np.array` (which may raise), an ndarray is kept, and anything else
is not an ndarray (`none`), making `contains` return `False`. -/
def coerceForContains (x : PyVal) : Except Exn (Option (List Nat × List PyScalar)) :=
  match x with
  | .pylist _ | .pystr _ => (npArrayOf x).map some
  | .pyarr sh d => .ok (some (sh, d.map (fun i => .num i)))
  | _ => .ok none

/-- `MultiBinary.contains(x)` (`src/gymnasium/spaces/multi_binary.py`, lines
129-138): coerce a `Sequence` with `np.array` (unguarded, so a coercion
failure propagates), then return whether the value is an ndarray whose shape
equals the space's shape and whose entries are all `0` or `1`
(`np.all` over an empty array is `True`). -/
def mbContains (n : MBn) (x : PyVal) : Except Exn Bool := do
  let xa ← coerceForContains x
  match xa with
  | none => .ok false
  | some (sh, d) => .ok (decide (n.shapeN = sh) && d.all PyScalar.isZeroOne)

/-- `int(i)` applied to an element of the constructor argument: integers
pass through, floats truncate toward zero, numeric strings parse (otherwise
`ValueError`), and lists/ndarrays/`None` raise `TypeError`. -/
def pyToInt : PyVal → Except Exn Int
  | .pyint n => .ok n
  | .pyfloat q => .ok (q.num / (q.den : Int))
  | .pystr s =>
      match s.toInt? with
      | some n => .ok n
      | none => .error (.valueError "invalid literal for int")
  | .pylist _ => .error (.typeError "int argument must be a string or a number, not list")
  | .pynone => .error (.typeError "int argument must be a string or a number, not NoneType")
  | .pyarr _ _ => .error (.typeError "only length-1 arrays can be converted to Python scalars")

/-- `MultiBinary.__init__(n)` (`src/gymnasium/spaces/multi_binary.py`, lines
43-53): an `int` is stored as a scalar with shape `(n,)`; a `Sequence` or
ndarray is stored as `tuple(int(i) for i in n)` (a string is a `Sequence` of
its characters; iterating a multi-axis ndarray yields sub-arrays, on which
`int` raises `TypeError`); in both cases
`assert (np.asarray(input_n) > 0).all()` rejects non-positive entries; every
other input type raises
`ValueError(f"Expected n to be an int or a sequence of ints, actual type:
...")` naming the received type. -/
def mbInit (x : PyVal) : Except Exn MBn :=
  match x with
  | .pyint n =>
      if 0 < n then .ok (.scalar n)
      else .error (.assertionError "n (counts) have to be positive")
  | .pylist xs => do
      let l ← mapME pyToInt xs
      if l.all (fun i => 0 < i) then .ok (.tup l)
      else .error (.assertionError "n (counts) have to be positive")
  | .pystr s => do
      let l ← mapME (fun c => pyToInt (.pystr (String.mk [c]))) s.data
      if l.all (fun i => 0 < i) then .ok (.tup l)
      else .error (.assertionError "n (counts) have to be positive")
  | .pyarr sh d =>
      if sh.length = 1 then
        if d.all (fun i => 0 < i) then .ok (.tup d)
        else .error (.assertionError "n (counts) have to be positive")
      else .error (.typeError "only length-1 arrays can be converted to Python scalars")
  | .pyfloat _ =>
      .error (.valueError (pyTypeName (.pyfloat 0)))
  | .pynone =>
      .error (.valueError (pyTypeName .pynone))

/-- Whether a result is a raised `TypeError`. -/
def isTypeErrorResult : Except Exn α → Bool
  | .error (.typeError _) => true
  | _ => false

/-- The `seed` argument of a space: `None`, a Python `int`, a dictionary of
per-child seed arguments, or a value of any other type (carried as its type
name, all `Dict.seed` does with it is reject it). -/
inductive SeedArg where
  | noneArg
  | intArg (n : Int)
  | dictArg (m : List (DKey × SeedArg))
  | otherArg (tyname : String)

/-- A seed report: a leaf reports the single integer seed actually used; a
`Dict` reports the mapping from child key to that child's report. -/
inductive SeedReport where
  | intRep (n : Int)
  | dictRep (m : List (DKey × SeedReport))

/-- The entropy sources involved in seeding, abstracted: `fresh p` is the
operating-system entropy resolved when the space at tree position `p` is
seeded with `None`; `sub s i` is the `i`-th 32-bit sub-seed the `Dict`'s own
generator draws after being seeded with the integer `s`
(`self.np_random.integers(np.iinfo(np.int32).max, size=len(self.spaces))`).
Both are external `RandomSource` behaviour, fixed for the scope of one
`seed` call. -/
structure SeedEnv where
  fresh : List DKey → Int
  sub : Int → Nat → Int

def sizeOf_lookupKey_lt {α : Type} [SizeOf α] {k : DKey} :
    ∀ {l : List (DKey × α)} {v : α}, lookupKey k l = some v → sizeOf v < sizeOf l := by
  intro l
  induction l with
  | nil => intro v h; simp [lookupKey] at h
  | cons p rest ih =>
      intro v h
      obtain ⟨k', v'⟩ := p
      simp only [lookupKey] at h
      by_cases hk : k' = k
      · rw [if_pos hk] at h
        injection h with h
        subst h
        simp only [List.cons.sizeOf_spec, Prod.mk.sizeOf_spec]
        omega
      · rw [if_neg hk] at h
        have := ih h
        simp only [List.cons.sizeOf_spec, Prod.mk.sizeOf_spec]
        omega

mutual

/-- `Space.seed` / `Dict.seed` (`src/gymnasium/spaces/dict.py`, lines
117-156).  For a leaf, modelled from the spec: `Space.seed` is not under
`src/`, and per the spec an integer seed is used as given and reported back,
`None` resolves fresh entropy and reports the resolved integer, and any
other argument is rejected.  For a `Dict`: `None` reseeds every child with
`None`; an integer seeds the `Dict`'s own generator and gives each child the
next 32-bit sub-seed, in stored key order; a mapping must have exactly the
child key set (`seed.keys() != self.spaces.keys()` raises `ValueError`),
then each child is seeded with its entry, iterating in the mapping's order;
any other type raises `TypeError`.  The returned report maps each child key
to that child's own report. -/
def seedSpace (env : SeedEnv) (path : List DKey) :
    GSpace → SeedArg → Except Exn SeedReport
  | .mb _, .noneArg => .ok (.intRep (env.fresh path))
  | .mb _, .intArg s => .ok (.intRep s)
  | .mb _, .dictArg _ => .error (.valueError "Seed must be a python integer")
  | .mb _, .otherArg t =>
      .error (.valueError ("Seed must be a python integer, actual type: " ++ t))
  | .dict ch, .noneArg => (seedChildrenNone env path ch).map .dictRep
  | .dict ch, .intArg s => (seedChildrenInt env path s 0 ch).map .dictRep
  | .dict ch, .dictArg m =>
      if keySetEq (keysOf m) (keysOf ch) then
        (seedChildrenMap env path ch m).map .dictRep
      else .error (.valueError "seed keys are not identical to space keys")
  | .dict _, .otherArg t =>
      .error (.typeError ("Expected seed type: dict, int or None, actual type: " ++ t))
termination_by g _ => (sizeOf g, 0)
decreasing_by
  all_goals
    try simp_wf
    apply Prod.Lex.left
    try simp only [GSpace.dict.sizeOf_spec]
    omega

/-- `{key: subspace.seed(None) for key, subspace in self.spaces.items()}`. -/
def seedChildrenNone (env : SeedEnv) (path : List DKey) :
    List (DKey × GSpace) → Except Exn (List (DKey × SeedReport))
  | [] => .ok []
  | (k, sp) :: rest => do
      let r ← seedSpace env (k :: path) sp .noneArg
      let tail ← seedChildrenNone env path rest
      .ok ((k, r) :: tail)
termination_by l => (sizeOf l, 0)
decreasing_by
  all_goals
    try simp_wf
    apply Prod.Lex.left
    try simp only [List.cons.sizeOf_spec, Prod.mk.sizeOf_spec]
    omega

/-- `{key: subspace.seed(int(subseed)) for (key, subspace), subseed in
zip(self.spaces.items(), subseeds)}`; `i` is the running sub-seed index. -/
def seedChildrenInt (env : SeedEnv) (path : List DKey) (s : Int) (i : Nat) :
    List (DKey × GSpace) → Except Exn (List (DKey × SeedReport))
  | [] => .ok []
  | (k, sp) :: rest => do
      let r ← seedSpace env (k :: path) sp (.intArg (env.sub s i))
      let tail ← seedChildrenInt env path s (i + 1) rest
      .ok ((k, r) :: tail)
termination_by l => (sizeOf l, 0)
decreasing_by
  all_goals
    try simp_wf
    apply Prod.Lex.left
    try simp only [List.cons.sizeOf_spec, Prod.mk.sizeOf_spec]
    omega

/-- `{key: self.spaces[key].seed(seed[key]) for key in seed.keys()}` —
iterated in the seed mapping's own order, looking each child up in
`self.spaces`. -/
def seedChildrenMap (env : SeedEnv) (path : List DKey) (ch : List (DKey × GSpace)) :
    List (DKey × SeedArg) → Except Exn (List (DKey × SeedReport))
  | [] => .ok []
  | (k, a) :: rest =>
      match _hl : lookupKey k ch with
      | some sp => do
          let r ← seedSpace env (k :: path) sp a
          let tail ← seedChildrenMap env path ch rest
          .ok ((k, r) :: tail)
      | none => .error .keyError
termination_by m => (sizeOf ch, sizeOf m)
decreasing_by
  · try simp_wf
    apply Prod.Lex.left
    exact sizeOf_lookupKey_lt _hl
  · try simp_wf
    apply Prod.Lex.right
    try simp only [List.cons.sizeOf_spec, Prod.mk.sizeOf_spec]
    omega

end

/-- `ndarray.tolist()` for an array of shape `sh` with row-major data `d`:
a 0-d array becomes its single scalar, otherwise the list of the `tolist()`
of its `k` first-axis sub-arrays, the `i`-th holding the row-major block of
`d` from `i * sh.prod` of length `sh.prod`. -/
def toNested : List Nat → List Int → Json
  | [], d => .jint (d.headD 0)
  | k :: sh, d =>
      .jarr ((List.range k).map (fun i => toNested sh ((d.drop (i * sh.prod)).take sh.prod)))

mutual

/-- `np.asarray(sample, dtype=self.dtype)` on a nested JSON-able value:
shape inference with the `int8` cast; a ragged nesting raises `ValueError`
(inhomogeneous shape), a dictionary raises `TypeError`. -/
def parseNested : Json → Except Exn (List Nat × List Int)
  | .jint n => .ok ([], [int8ofInt n])
  | .jarr xs => do
      let ps ← parseList xs
      match ps with
      | [] => .ok ([0], [])
      | (sh, _) :: _ =>
          if ps.all (fun p => p.1 = sh) then
            .ok (ps.length :: sh, (ps.map Prod.snd).flatten)
          else .error (.valueError "setting an array element with a sequence")
  | .jobj _ => .error (.typeError "int() argument must be a number, not dict")

def parseList : List Json → Except Exn (List (List Nat × List Int))
  | [] => .ok []
  | x :: xs => do
      let p ← parseNested x
      let ps ← parseList xs
      .ok (p :: ps)

end

/-- The nested-list encoding of one sample as produced inside
`np.array(sample_n).tolist()`.  A non-array sample cannot occur in a
well-formed batch of a leaf space (NumPy would build an object array); the
placeholder branch is unreachable under the membership hypotheses used
below. -/
def svalNested : SVal → Json
  | .arr sh d => toNested sh d
  | .dict _ => .jint 0

/-- `MultiBinary.to_jsonable(sample_n) = np.array(sample_n).tolist()`
(`src/gymnasium/spaces/multi_binary.py`, lines 140-142): for a batch of
equally-shaped samples, stacking and then `tolist()` yields exactly the list
of each sample's own nested-list encoding (and `[]` for the empty batch). -/
def mbToJsonable (sample_n : List SVal) : Json :=
  .jarr (sample_n.map svalNested)

/-- `MultiBinary.from_jsonable(sample_n) = [np.asarray(sample, self.dtype)
for sample in sample_n]` (`src/gymnasium/spaces/multi_binary.py`, lines
144-146).  Iterating a non-list raises: an `int` is not iterable, and
iterating a dictionary yields its keys, on which `np.asarray(-, int8)`
succeeds only for `int` keys. -/
def mbFromJsonable : Json → Except Exn (List SVal)
  | .jarr xs => mapME (fun x => (parseNested x).map (fun p => SVal.arr p.1 p.2)) xs
  | .jint _ => .error (.typeError "int object is not iterable")
  | .jobj m =>
      mapME (fun p =>
        match p.1 with
        | DKey.kint n => Except.ok (SVal.arr [] [int8ofInt n])
        | DKey.kstr _ => Except.error (Exn.valueError "invalid literal for int"))
        m

/-- `sample[key]` for a batch entry: lookup in the sample dictionary.  A
missing key or a non-dictionary sample would raise in Python; both are
unreachable under the membership hypotheses used below, so they default. -/
def sampleGet (k : DKey) : SVal → SVal
  | .dict m => (lookupKey k m).getD (.dict [])
  | .arr _ _ => .dict []

/-- `[sample[key] for sample in sample_n]`: the column of a batch at `key`. -/
def colKey (k : DKey) (sample_n : List SVal) : List SVal :=
  sample_n.map (sampleGet k)

mutual

/-- `to_jsonable` (`src/gymnasium/spaces/dict.py`, lines 240-246 for `Dict`,
delegating to each child): a `Dict` produces `{key:
space.to_jsonable([sample[key] for sample in sample_n]) for key, space in
self.spaces.items()}` — the row-to-column transposition; a leaf produces its
nested-list batch. -/
def toJsonableS : GSpace → List SVal → Json
  | .mb _, sample_n => mbToJsonable sample_n
  | .dict ch, sample_n => .jobj (toJChildren ch sample_n)

def toJChildren : List (DKey × GSpace) → List SVal → List (DKey × Json)
  | [], _ => []
  | (k, sp) :: rest, sample_n =>
      (k, toJsonableS sp (colKey k sample_n)) :: toJChildren rest sample_n

end

/-- `sample_n[key]` on the decoded-from-JSON input: dictionary lookup
(`KeyError` when absent), `TypeError` on non-dictionary input. -/
def jsonGetItem : Json → DKey → Except Exn Json
  | .jobj m, k =>
      match lookupKey k m with
      | some v => .ok v
      | none => .error .keyError
  | .jarr _, _ => .error (.typeError "list indices must be integers")
  | .jint _, _ => .error (.typeError "int object is not subscriptable")

/-- The tail of `Dict.from_jsonable` after `dict_of_list` is built
(`src/gymnasium/spaces/dict.py`, lines 254-260):
`n_elements = len(next(iter(dict_of_list.values())))` — `StopIteration` when
there are no children — then
`[{key: value[n] for key, value in dict_of_list.items()} for n in
range(n_elements)]`, where `value[n]` raises `IndexError` when some child's
batch is shorter than the first child's. -/
def dictRows (dol : List (DKey × List SVal)) : Except Exn (List SVal) :=
  match dol with
  | [] => .error .stopIteration
  | (_, v0) :: _ =>
      mapME (fun i =>
        (mapME (fun p =>
            match p.2[i]? with
            | some x => Except.ok (p.1, x)
            | none => Except.error Exn.indexError) dol).map SVal.dict)
        (List.range v0.length)

mutual

/-- `from_jsonable` (`src/gymnasium/spaces/dict.py`, lines 248-260 for
`Dict`): build `dict_of_list = {key: space.from_jsonable(sample_n[key]) for
key, space in self.spaces.items()}` — note `sample_n` is only indexed when
there is at least one child — then transpose with `dictRows`. -/
def fromJsonableS : GSpace → Json → Except Exn (List SVal)
  | .mb _, j => mbFromJsonable j
  | .dict ch, j => do
      let dol ← fromJChildren ch j
      dictRows dol

def fromJChildren : List (DKey × GSpace) → Json → Except Exn (List (DKey × List SVal))
  | [], _ => .ok []
  | (k, sp) :: rest, j => do
      let jk ← jsonGetItem j k
      let v ← fromJsonableS sp jk
      let tail ← fromJChildren rest j
      .ok ((k, v) :: tail)

end

mutual

/-- `contains` (`src/gymnasium/spaces/multi_binary.py` lines 129-138 for the
leaf on an actual ndarray sample, `src/gymnasium/spaces/dict.py` lines
204-208 for `Dict`): a leaf contains an ndarray of exactly the space's shape
with all entries `0` or `1` (the length conjunct records the ndarray
representation invariant, true of every real ndarray); a `Dict` contains a
dictionary whose key set equals the child key set and whose every value is
contained in the corresponding child. -/
def memS : GSpace → SVal → Bool
  | .mb n, .arr sh d =>
      decide (n.shapeN = sh) && decide (d.length = sh.prod) &&
        d.all (fun x => x = 0 || x = 1)
  | .mb _, .dict _ => false
  | .dict ch, .dict m => keySetEq (keysOf m) (keysOf ch) && memChildren ch m
  | .dict _, .arr _ _ => false

/-- `all(x[key] in self.spaces[key] for key in self.spaces.keys())`. -/
def memChildren : List (DKey × GSpace) → List (DKey × SVal) → Bool
  | [], _ => true
  | (k, sp) :: rest, m =>
      (match lookupKey k m with
       | some v => memS sp v
       | none => false)
      && memChildren rest m

end

mutual

/-- No `Dict` node of the space tree is childless.  `from_jsonable` on a
childless `Dict` raises `StopIteration` unconditionally, so round-tripping
requires this of every `Dict` subspace. -/
def noEmptyDict : GSpace → Bool
  | .mb _ => true
  | .dict ch => !ch.isEmpty && noEmptyChildren ch

def noEmptyChildren : List (DKey × GSpace) → Bool
  | [] => true
  | (_, sp) :: rest => noEmptyDict sp && noEmptyChildren rest

end

mutual

/-- Representation invariant of a Python sample value: every dictionary in
it has unique keys (true of every real Python `dict`). -/
def wfSVal : SVal → Bool
  | .arr _ _ => true
  | .dict m => keysNodup (keysOf m) && wfSValChildren m

def wfSValChildren : List (DKey × SVal) → Bool
  | [] => true
  | (_, v) :: rest => wfSVal v && wfSValChildren rest

end

mutual

/-- The canonical re-ordering of a sample along the space tree: dictionary
entries are rebuilt in the space's stored child order (values unchanged).
This is exactly what a `to_jsonable`/`from_jsonable` round trip does to a
sample. -/
def canon : GSpace → SVal → SVal
  | .mb _, v => v
  | .dict ch, v => .dict (canonChildren ch v)

def canonChildren : List (DKey × GSpace) → SVal → List (DKey × SVal)
  | [], _ => []
  | (k, sp) :: rest, v => (k, canon sp (sampleGet k v)) :: canonChildren rest v

end

mutual

/-- Python `==` on sample values: ndarrays compare by shape and entries
(`np.array_equal`, the reading of "element-for-element" equality), and
dictionaries compare as Python `dict`s — equal sizes and, for every key of
the left, an equal value at that key in the right — which ignores entry
order. -/
def pyEqV : SVal → SVal → Bool
  | .arr sh d, .arr sh' d' => decide (sh = sh') && decide (d = d')
  | .dict m, .dict m' => decide (m.length = m'.length) && pyEqChildren m m'
  | .arr _ _, .dict _ => false
  | .dict _, .arr _ _ => false

def pyEqChildren : List (DKey × SVal) → List (DKey × SVal) → Bool
  | [], _ => true
  | (k, v) :: rest, m' =>
      (match lookupKey k m' with
       | some w => pyEqV v w
       | none => false)
      && pyEqChildren rest m'

end

/-- A first example child space, `MultiBinary(1)`. -/
def exSpaceA : GSpace := .mb (.scalar 1)

/-- A second example child space, `MultiBinary(2)`, not equal to `exSpaceA`. -/
def exSpaceB : GSpace := .mb (.scalar 2)

/-- A concrete seeding environment for the witness. -/
def exSeedEnv : SeedEnv := ⟨fun _ => 7, fun s i => s + i⟩

theorem exceptBind_ok (a : α) (f : α → Except Exn β) : (Except.ok a >>= f) = f a := rfl

theorem mapME_ok_of_forall (f : α → Except Exn β) (g : α → β) :
    ∀ (l : List α), (∀ a ∈ l, f a = .ok (g a)) → mapME f l = .ok (l.map g)
  | [], _ => rfl
  | a :: l, h => by
      have ha := h a (List.mem_cons_self a l)
      have hl := mapME_ok_of_forall f g l (fun b hb => h b (List.mem_cons_of_mem a hb))
      simp only [mapME, ha, hl, List.map_cons]
      rfl

theorem lookupKey_eq_some_of_mem_nodup {k : DKey} {v : α} :
    ∀ {l : List (DKey × α)}, keysNodup (keysOf l) = true → (k, v) ∈ l →
      lookupKey k l = some v := by
  intro l
  induction l with
  | nil => intro _ h; cases h
  | cons p rest ih =>
      intro hnd hmem
      obtain ⟨k', v'⟩ := p
      simp only [keysOf, List.map_cons, keysNodup, Bool.and_eq_true, Bool.not_eq_true'] at hnd
      rcases List.mem_cons.mp hmem with heq | hrest
      · cases heq
        simp [lookupKey]
      · have hk : k' ≠ k := by
          intro h
          subst h
          have hmm : keyMem k' (List.map Prod.fst rest) = true := by
            simp only [keyMem, List.any_eq_true, decide_eq_true_eq]
            exact ⟨k', List.mem_map_of_mem Prod.fst hrest, rfl⟩
          rw [hnd.1] at hmm
          exact Bool.false_ne_true hmm
        simp only [lookupKey, if_neg hk]
        exact ih hnd.2 hrest

/-- Structural induction over the nested space tree. -/
theorem GSpace.indOn {P : GSpace → Prop}
    (hmb : ∀ n, P (.mb n))
    (hdict : ∀ l, (∀ p ∈ l, P p.2) → P (.dict l)) : ∀ g, P g
  | .mb n => hmb n
  | .dict l => hdict l (fun p hp =>
      have : sizeOf p.2 < 1 + sizeOf l := by
        have h1 := List.sizeOf_lt_of_mem hp
        have h2 : sizeOf p.2 < sizeOf p := by
          obtain ⟨a, b⟩ := p
          simp only [Prod.mk.sizeOf_spec]
          omega
        omega
      GSpace.indOn hmb hdict p.2)
termination_by g => sizeOf g

theorem mem_of_keyMem {k : DKey} {ks : List DKey} (h : keyMem k ks = true) : k ∈ ks := by
  simp only [keyMem, List.any_eq_true, decide_eq_true_eq] at h
  obtain ⟨k', hk', he⟩ := h
  exact he ▸ hk'

theorem keyMem_of_mem {k : DKey} {ks : List DKey} (h : k ∈ ks) : keyMem k ks = true := by
  simp only [keyMem, List.any_eq_true, decide_eq_true_eq]
  exact ⟨k, h, rfl⟩

theorem keysNodup_iff : ∀ {ks : List DKey}, keysNodup ks = true ↔ ks.Nodup := by
  intro ks
  induction ks with
  | nil => simp [keysNodup]
  | cons k ks ih =>
      simp only [keysNodup, Bool.and_eq_true, Bool.not_eq_true', List.nodup_cons, ih]
      constructor
      · rintro ⟨h1, h2⟩
        refine ⟨fun hm => ?_, h2⟩
        rw [keyMem_of_mem hm] at h1
        exact Bool.noConfusion h1
      · rintro ⟨h1, h2⟩
        refine ⟨?_, h2⟩
        cases hcm : keyMem k ks
        · rfl
        · exact absurd (mem_of_keyMem hcm) h1

theorem wfChildren_forall :
    ∀ {ch : List (DKey × GSpace)}, wfChildren ch = true → ∀ p ∈ ch, wfSpace p.2 = true := by
  intro ch
  induction ch with
  | nil => intro _ p hp; cases hp
  | cons q rest ih =>
      intro h p hp
      obtain ⟨k, sp⟩ := q
      simp only [wfChildren, Bool.and_eq_true] at h
      rcases List.mem_cons.mp hp with heq | hrest
      · subst heq; exact h.1
      · exact ih h.2 p hrest

theorem dictValuesEq_of_forall :
    ∀ (s t : List (DKey × GSpace)),
      (∀ p ∈ s, ∃ w, lookupKey p.1 t = some w ∧ spaceEq p.2 w = true) →
      dictValuesEq s t = true := by
  intro s t
  induction s with
  | nil => intro _; rfl
  | cons q rest ih =>
      intro h
      obtain ⟨k, v⟩ := q
      obtain ⟨w, hw, he⟩ := h (k, v) (List.mem_cons_self _ _)
      simp only [dictValuesEq, hw, he, Bool.true_and]
      exact ih (fun p hp => h p (List.mem_cons_of_mem _ hp))

theorem spaceEq_refl : ∀ g : GSpace, wfSpace g = true → spaceEq g g = true := by
  intro g
  induction g using GSpace.indOn with
  | hmb n => intro _; simp [spaceEq]
  | hdict l ih =>
      intro hwf
      simp only [wfSpace, Bool.and_eq_true] at hwf
      simp only [spaceEq, Bool.and_eq_true, decide_eq_true_eq]
      refine ⟨trivial, ?_⟩
      refine dictValuesEq_of_forall l l (fun p hp => ⟨p.2, ?_, ?_⟩)
      · exact lookupKey_eq_some_of_mem_nodup hwf.1 (by rw [Prod.mk.eta]; exact hp)
      · exact ih p hp (wfChildren_forall hwf.2 p hp)

theorem getD_map_range {α : Type} (f : Nat → α) (d0 : α) (n i : Nat) (h : i < n) :
    ((List.range n).map f).getD i d0 = f i := by
  rw [List.getD_eq_getElem?_getD, List.getElem?_map, List.getElem?_range h]
  rfl

/-- C1 counterexample: with child spaces `A = MultiBinary(1)` and
`B = MultiBinary(2)` (so `A != B`), `Dict({"a": A, "b": B})` DOES equal
`Dict({"b": B, "a": A})`, contrary to the claim: mapping construction sorts
both key sets into the same stored order, and `Dict.__eq__` compares
`self.spaces` with plain-`dict` equality, which ignores order — as the third
conjunct shows, even two `Dict`s whose stored key orders genuinely differ
compare equal. -/
theorem dict_eq_claim_counterexample :
    spaceEq exSpaceA exSpaceB = false ∧
    spaceEq (.dict (dictInitMapping [(DKey.kstr "a", exSpaceA), (DKey.kstr "b", exSpaceB)]))
        (.dict (dictInitMapping [(DKey.kstr "b", exSpaceB), (DKey.kstr "a", exSpaceA)])) = true ∧
    spaceEq (.dict [(DKey.kstr "a", exSpaceA), (DKey.kstr "b", exSpaceB)])
        (.dict [(DKey.kstr "b", exSpaceB), (DKey.kstr "a", exSpaceA)]) = true := by
  decide

/-- C1 (amended): `Dict` equality is order-INsensitive.  Two `Dict` spaces
holding the same keys (unique, in any stored orders related by a
permutation) with the same child spaces are equal; in particular a `Dict`
equals itself, and `Dict({"a": A, "b": B}) == Dict({"b": B, "a": A})`. -/
theorem dict_eq_order_insensitive (s t : List (DKey × GSpace))
    (hnd : keysNodup (keysOf s) = true) (hwf : wfChildren s = true)
    (hperm : s.Perm t) :
    spaceEq (.dict s) (.dict t) = true := by
  simp only [spaceEq, Bool.and_eq_true, decide_eq_true_eq]
  refine ⟨hperm.length_eq, ?_⟩
  have hndt : keysNodup (keysOf t) = true := by
    rw [keysNodup_iff] at hnd ⊢
    exact ((hperm.map Prod.fst).nodup_iff).mp hnd
  refine dictValuesEq_of_forall s t (fun p hp => ⟨p.2, ?_, ?_⟩)
  · exact lookupKey_eq_some_of_mem_nodup hndt (by rw [Prod.mk.eta]; exact hperm.subset hp)
  · exact spaceEq_refl p.2 (wfChildren_forall hwf p hp)

/-- C1 witness: the amended theorem applied to the two stored orders of the
`{"a": A, "b": B}` dictionary. -/
theorem dict_eq_order_insensitive_witness :
    spaceEq (.dict [(DKey.kstr "a", exSpaceA), (DKey.kstr "b", exSpaceB)])
        (.dict [(DKey.kstr "b", exSpaceB), (DKey.kstr "a", exSpaceA)]) = true :=
  dict_eq_order_insensitive _ _ (by decide) (by decide) (List.Perm.swap _ _ _)

/-- C5: `Dict` construction from a mapping stores the children sorted by key
when the keys are mutually comparable (here: a permutation of the input that
is pairwise ordered under the key order), and keeps the original insertion
order, without raising, when the keys mix `int` and `str`. -/
theorem dict_init_key_ordering :
    (∀ pairs : List (DKey × GSpace),
        keysComparable (keysOf pairs) = true →
          (dictInitMapping pairs).Perm pairs ∧
          (dictInitMapping pairs).Pairwise keyOrder) ∧
    (∀ pairs : List (DKey × GSpace),
        (∃ p ∈ pairs, p.1.isInt = true) → (∃ p ∈ pairs, p.1.isStr = true) →
          dictInitMapping pairs = pairs) := by
  constructor
  · intro pairs hc
    unfold dictInitMapping
    rw [if_pos hc]
    exact ⟨List.perm_insertionSort keyOrder pairs, List.sorted_insertionSort keyOrder pairs⟩
  · rintro pairs ⟨p, hp, hpint⟩ ⟨q, hq, hqstr⟩
    have hcf : keysComparable (keysOf pairs) = false := by
      simp only [keysComparable, Bool.or_eq_false_iff, List.all_eq_false]
      constructor
      · refine ⟨q.1, List.mem_map_of_mem Prod.fst hq, ?_⟩
        cases hk : q.1 <;> simp [hk, DKey.isStr, DKey.isInt] at hqstr ⊢
      · refine ⟨p.1, List.mem_map_of_mem Prod.fst hp, ?_⟩
        cases hk : p.1 <;> simp [hk, DKey.isStr, DKey.isInt] at hpint ⊢
    unfold dictInitMapping
    rw [if_neg (by rw [hcf]; exact Bool.noConfusion)]

/-- C5 witness: comparable `str` keys are sorted; a mixed `int`/`str` key
set is kept in insertion order. -/
theorem dict_init_key_ordering_witness :
    ((dictInitMapping [(DKey.kstr "b", exSpaceB), (DKey.kstr "a", exSpaceA)]).Perm
        [(DKey.kstr "b", exSpaceB), (DKey.kstr "a", exSpaceA)] ∧
      (dictInitMapping [(DKey.kstr "b", exSpaceB), (DKey.kstr "a", exSpaceA)]).Pairwise keyOrder) ∧
    dictInitMapping [(DKey.kint 1, exSpaceA), (DKey.kstr "a", exSpaceB)] =
      [(DKey.kint 1, exSpaceA), (DKey.kstr "a", exSpaceB)] :=
  ⟨dict_init_key_ordering.1 _ (by decide),
   dict_init_key_ordering.2 _ ⟨(DKey.kint 1, exSpaceA), by decide⟩
     ⟨(DKey.kstr "a", exSpaceB), by decide⟩⟩

/-- C3: for every `MultiBinary` space, generator state and mask of the
space's shape with dtype `int8` and entries in `{0, 1, 2}`, `sample(mask)`
succeeds with an array of the space's shape whose value equals the mask
entry wherever that entry is `0` or `1`, and lies in `{0, 1}` wherever the
entry is `2`. -/
theorem mb_sample_mask_spec (n : MBn) (rng : RandomSource) (m : NdInt)
    (hdt : m.dtype = "int8") (hsh : m.shape = n.shapeN)
    (_hlen : m.data.length = n.shapeN.prod)
    (hv : ∀ v ∈ m.data, v = 0 ∨ v = 1 ∨ v = 2) :
    ∃ out, mbSample n rng (some m) none = .ok out ∧
      out.length = n.shapeN.prod ∧
      ∀ i, i < n.shapeN.prod →
        ((m.data.getD i 0 = 0 ∨ m.data.getD i 0 = 1) → out.getD i 0 = m.data.getD i 0) ∧
        (m.data.getD i 0 = 2 → out.getD i 0 = 0 ∨ out.getD i 0 = 1) := by
  have hall : m.data.all (fun v => v = 0 || v = 1 || v = 2) = true := by
    rw [List.all_eq_true]
    intro v hvm
    rcases hv v hvm with h | h | h <;> simp [h]
  refine ⟨_, by rw [mbSample, if_pos hdt, if_pos hsh, if_pos hall], ?_, ?_⟩
  · simp
  · intro i hi
    constructor
    · intro h01
      rw [getD_map_range _ _ _ _ hi]
      rcases h01 with h | h <;> rw [h] <;> norm_num [int8ofInt]
    · intro h2
      rw [getD_map_range _ _ _ _ hi, if_pos h2]
      have := rng.intDraw_lt i
      omega

/-- C3 witness: a concrete three-cell mask `[0, 1, 2]` against
`MultiBinary([3])` and the all-zero generator state. -/
theorem mb_sample_mask_spec_witness :
    ∃ out, mbSample (MBn.tup [3]) zeroRng (some ⟨"int8", [3], [0, 1, 2]⟩) none = .ok out ∧
      out.length = (MBn.tup [3]).shapeN.prod ∧
      ∀ i, i < (MBn.tup [3]).shapeN.prod →
        (((NdInt.mk "int8" [3] [0, 1, 2]).data.getD i 0 = 0 ∨
            (NdInt.mk "int8" [3] [0, 1, 2]).data.getD i 0 = 1) →
          out.getD i 0 = (NdInt.mk "int8" [3] [0, 1, 2]).data.getD i 0) ∧
        ((NdInt.mk "int8" [3] [0, 1, 2]).data.getD i 0 = 2 →
          out.getD i 0 = 0 ∨ out.getD i 0 = 1) :=
  mb_sample_mask_spec (MBn.tup [3]) zeroRng ⟨"int8", [3], [0, 1, 2]⟩
    rfl (by decide) (by decide) (by decide)

/-- C4 counterexample: sampling `MultiBinary([2])` with the all-zeros
probability array at a generator state whose `random()` draws are exactly
`0.0` (legitimate: `random()` ranges over `[0, 1)`) returns the all-ONE
array, because the code compares `random() <= probability`, which holds at
`0.0 <= 0.0`.  So an all-zeros probability does not always yield the
all-zero array. -/
theorem mb_sample_probability_counterexample :
    mbSample (MBn.tup [2]) zeroRng none (some ⟨"float64", [2], [0, 0]⟩) = .ok [1, 1] := by
  rfl

/-- C4 (amended): with a probability array of the space's shape, dtype
`float64` and entries in `[0, 1]`, sampling succeeds, each output cell is
`1` exactly when the uniform draw there is `<=` the probability entry; an
all-ones probability always yields the all-one array, and an all-zeros
probability yields `0` at a cell if and only if the uniform draw there is
strictly positive (so the all-zero array is guaranteed only when no draw is
exactly `0.0`). -/
theorem mb_sample_probability_spec (n : MBn) (rng : RandomSource) (p : NdFloat)
    (hdt : p.dtype = "float64") (hsh : p.shape = n.shapeN)
    (hlen : p.data.length = n.shapeN.prod)
    (hv : ∀ q ∈ p.data, 0 ≤ q ∧ q ≤ 1) :
    ∃ out, mbSample n rng none (some p) = .ok out ∧
      out.length = n.shapeN.prod ∧
      (∀ i, i < n.shapeN.prod →
        out.getD i 0 = if rng.unifDraw i ≤ p.data.getD i 0 then 1 else 0) ∧
      ((∀ q ∈ p.data, q = 1) → ∀ i, i < n.shapeN.prod → out.getD i 0 = 1) ∧
      ((∀ q ∈ p.data, q = 0) → ∀ i, i < n.shapeN.prod →
        (out.getD i 0 = 0 ↔ 0 < rng.unifDraw i)) := by
  have hall : p.data.all (fun q => 0 ≤ q && q ≤ 1) = true := by
    rw [List.all_eq_true]
    intro q hq
    rcases hv q hq with ⟨h0, h1⟩
    simp [h0, h1]
  have hmem : ∀ i, i < n.shapeN.prod → p.data.getD i 0 ∈ p.data := by
    intro i hi
    rw [List.getD_eq_getElem?_getD, List.getElem?_eq_getElem (by omega), Option.getD_some]
    exact List.getElem_mem _
  refine ⟨_, by rw [mbSample, if_pos hdt, if_pos hsh, if_pos hall], by simp, ?_, ?_, ?_⟩
  · intro i hi
    exact getD_map_range _ _ _ _ hi
  · intro hones i hi
    rw [getD_map_range _ _ _ _ hi, if_pos]
    rw [hones _ (hmem i hi)]
    exact le_of_lt (rng.unifDraw_lt_one i)
  · intro hzeros i hi
    rw [getD_map_range _ _ _ _ hi]
    rw [hzeros _ (hmem i hi)]
    rcases lt_or_eq_of_le (rng.unifDraw_nonneg i) with hpos | hzero
    · rw [if_neg (by exact fun hle => absurd (le_antisymm hle (le_of_lt hpos)) (ne_of_gt hpos))]
      simp [hpos]
    · rw [if_pos (le_of_eq hzero.symm)]
      constructor
      · intro h; cases h
      · intro h; rw [← hzero] at h; exact absurd h (lt_irrefl 0)

/-- C4 witness: the amended theorem applied to `MultiBinary([2])`, the
all-zero generator state and the all-ones probability array. -/
theorem mb_sample_probability_spec_witness :
    ∃ out, mbSample (MBn.tup [2]) zeroRng none (some ⟨"float64", [2], [1, 1]⟩) = .ok out ∧
      out.length = (MBn.tup [2]).shapeN.prod ∧
      (∀ i, i < (MBn.tup [2]).shapeN.prod →
        out.getD i 0 =
          if zeroRng.unifDraw i ≤ (NdFloat.mk "float64" [2] [1, 1]).data.getD i 0 then 1
          else 0) ∧
      ((∀ q ∈ (NdFloat.mk "float64" [2] [1, 1]).data, q = 1) →
        ∀ i, i < (MBn.tup [2]).shapeN.prod → out.getD i 0 = 1) ∧
      ((∀ q ∈ (NdFloat.mk "float64" [2] [1, 1]).data, q = 0) →
        ∀ i, i < (MBn.tup [2]).shapeN.prod → (out.getD i 0 = 0 ↔ 0 < zeroRng.unifDraw i)) :=
  mb_sample_probability_spec (MBn.tup [2]) zeroRng ⟨"float64", [2], [1, 1]⟩
    rfl (by decide) (by decide) (by decide)

/-- C6 counterexample: `contains` CAN raise.  On the ragged nested list
`[[1], [2, 3]]` the unguarded `np.array` coercion fails (inhomogeneous
shape, a `ValueError`), and `contains` propagates it instead of returning
`False` — the function has no exception handler. -/
theorem mb_contains_counterexample :
    mbContains (MBn.tup [2]) (.pylist [.pylist [.pyint 1], .pylist [.pyint 2, .pyint 3]]) =
      .error (.valueError "setting an array element with a sequence") := by
  rfl

/-- C6 (amended): whenever the `np.array` coercion succeeds (which includes
every non-`Sequence` input, which is not coerced at all), `contains` does
not raise: it returns `True` exactly when the value is an ndarray whose
shape equals the space's shape and whose entries are all `0` or `1`, and
`False` otherwise (including every non-ndarray input); only when the input
is a `Sequence` on which `np.array` itself raises does `contains` propagate
that exception. -/
theorem mb_contains_spec (n : MBn) (x : PyVal) :
    (∀ sh d, coerceForContains x = .ok (some (sh, d)) →
        (mbContains n x = .ok true ↔ n.shapeN = sh ∧ ∀ a ∈ d, a.isZeroOne = true) ∧
        ∀ e, mbContains n x ≠ .error e) ∧
    (coerceForContains x = .ok none → mbContains n x = .ok false) ∧
    (∀ e, npArrayOf x = .error e → isPySeq x = true → mbContains n x = .error e) := by
  refine ⟨fun sh d hc => ?_, fun hc => ?_, fun e he hs => ?_⟩
  · have hbc : mbContains n x =
        .ok (decide (n.shapeN = sh) && d.all PyScalar.isZeroOne) := by
      rw [mbContains, hc]
      rfl
    constructor
    · rw [hbc]
      simp [List.all_eq_true]
    · intro e
      rw [hbc]
      exact fun h => Except.noConfusion h
  · rw [mbContains, hc]
    rfl
  · cases x <;> simp [isPySeq] at hs <;> rw [mbContains] <;>
      simp only [coerceForContains, he] <;> rfl

/-- C6 witness: a well-shaped `[0, 1]` list against `MultiBinary([2])`. -/
theorem mb_contains_spec_witness :
    (mbContains (MBn.tup [2]) (.pylist [.pyint 0, .pyint 1]) = .ok true ↔
      (MBn.tup [2]).shapeN = [2] ∧
        ∀ a ∈ [PyScalar.num 0, PyScalar.num 1], a.isZeroOne = true) ∧
    (∀ e, mbContains (MBn.tup [2]) (.pylist [.pyint 0, .pyint 1]) ≠ .error e) :=
  (mb_contains_spec (MBn.tup [2]) (.pylist [.pyint 0, .pyint 1])).1 [2]
    [PyScalar.num 0, PyScalar.num 1] (by rfl)

/-- C7 counterexample: `MultiBinary(2.5)` — an input that is neither an
`int` nor a `Sequence`/ndarray — is rejected with a `ValueError` naming the
received type, not with a `TypeError`-kind failure as claimed. -/
theorem mb_init_counterexample :
    mbInit (.pyfloat (5 / 2)) = .error (.valueError "float") ∧
    isTypeErrorResult (mbInit (.pyfloat (5 / 2))) = false := by
  exact ⟨rfl, rfl⟩

/-- C7 (amended): the `MultiBinary` constructor accepts a positive integer
(stored as a scalar) and a sequence of positive integers (stored as a
tuple); it rejects non-positive entries (`AssertionError` from the
positivity assert); and it rejects any other input type — e.g. a float or
`None` — with a ValueError (not a TypeError) identifying the actual type
received. -/
theorem mb_init_spec :
    (∀ n : Int, 0 < n → mbInit (.pyint n) = .ok (.scalar n)) ∧
    (∀ n : Int, n ≤ 0 →
        mbInit (.pyint n) = .error (.assertionError "n (counts) have to be positive")) ∧
    (∀ l : List Int, (∀ i ∈ l, 0 < i) → mbInit (.pylist (l.map .pyint)) = .ok (.tup l)) ∧
    (∀ q : ℚ, mbInit (.pyfloat q) = .error (.valueError "float")) ∧
    (mbInit .pynone = .error (.valueError "NoneType")) := by
  refine ⟨fun n h => ?_, fun n h => ?_, fun l h => ?_, fun q => rfl, rfl⟩
  · rw [mbInit, if_pos h]
  · rw [mbInit, if_neg (not_lt.mpr h)]
  · have hm : mapME pyToInt (l.map .pyint) =
        .ok ((l.map PyVal.pyint).map (fun x =>
          match x with
          | .pyint n => n
          | _ => 0)) := by
      refine mapME_ok_of_forall _ _ _ (fun a ha => ?_)
      obtain ⟨i, _, rfl⟩ := List.mem_map.mp ha
      rfl
    have hml : ∀ l' : List Int, (l'.map PyVal.pyint).map (fun x =>
        match x with
        | .pyint n => n
        | _ => 0) = l' := by
      intro l'
      induction l' with
      | nil => rfl
      | cons a t ih => simp only [List.map_cons, ih]
    have hm2 : mapME pyToInt (l.map .pyint) = .ok l := by rw [hm, hml l]
    have hall : l.all (fun i => 0 < i) = true := by
      rw [List.all_eq_true]
      intro i hi
      simpa using h i hi
    rw [mbInit, hm2, exceptBind_ok, if_pos hall]

/-- C7 witness: `MultiBinary(3)`, `MultiBinary(0)`, `MultiBinary([3, 2])`. -/
theorem mb_init_spec_witness :
    mbInit (.pyint 3) = .ok (.scalar 3) ∧
    mbInit (.pyint 0) = .error (.assertionError "n (counts) have to be positive") ∧
    mbInit (.pylist [PyVal.pyint 3, PyVal.pyint 2]) = .ok (.tup [3, 2]) :=
  ⟨mb_init_spec.1 3 (by norm_num),
   mb_init_spec.2.1 0 (le_refl 0),
   mb_init_spec.2.2.1 [3, 2] (by decide)⟩

theorem seedChildrenMap_ok (env : SeedEnv) (path : List DKey) (ch : List (DKey × GSpace))
    (rf : DKey → SeedArg → SeedReport) :
    ∀ m : List (DKey × SeedArg),
      (∀ p ∈ m, ∃ sp, lookupKey p.1 ch = some sp ∧
          seedSpace env (p.1 :: path) sp p.2 = .ok (rf p.1 p.2)) →
      seedChildrenMap env path ch m = .ok (m.map (fun p => (p.1, rf p.1 p.2))) := by
  intro m
  induction m with
  | nil => intro _; simp [seedChildrenMap]
  | cons q rest ih =>
      intro h
      obtain ⟨k, a⟩ := q
      obtain ⟨sp, hl, hs⟩ := h (k, a) (List.mem_cons_self _ _)
      have ht := ih (fun p hp => h p (List.mem_cons_of_mem _ hp))
      have hl' : lookupKey k ch = some sp := hl
      have hs' : seedSpace env (k :: path) sp a = .ok (rf k a) := hs
      simp only [seedChildrenMap, ht, List.map_cons]
      split
      · rename_i sp2 heq
        rw [hl'] at heq
        injection heq with heq
        subst heq
        rw [hs']
        rfl
      · rename_i heq
        rw [hl'] at heq
        cases heq

/-- C8: `Dict.seed` with a mapping whose key set differs from the child key
set raises `ValueError`; with an argument that is neither `None`, an
integer, nor a mapping it raises `TypeError`; and with a well-formed mapping
it seeds each child with its corresponding entry forwarded verbatim
(looking the child up by the entry's key) and returns the mapping from child
key to that child's seed report. -/
theorem dict_seed_spec :
    (∀ (env : SeedEnv) (path : List DKey) (ch : List (DKey × GSpace))
        (m : List (DKey × SeedArg)),
        keySetEq (keysOf m) (keysOf ch) = false →
          seedSpace env path (.dict ch) (.dictArg m) =
            .error (.valueError "seed keys are not identical to space keys")) ∧
    (∀ (env : SeedEnv) (path : List DKey) (ch : List (DKey × GSpace)) (t : String),
        seedSpace env path (.dict ch) (.otherArg t) =
          .error (.typeError ("Expected seed type: dict, int or None, actual type: " ++ t))) ∧
    (∀ (env : SeedEnv) (path : List DKey) (ch : List (DKey × GSpace))
        (m : List (DKey × SeedArg)) (rf : DKey → SeedArg → SeedReport),
        keySetEq (keysOf m) (keysOf ch) = true →
        (∀ p ∈ m, ∃ sp, lookupKey p.1 ch = some sp ∧
            seedSpace env (p.1 :: path) sp p.2 = .ok (rf p.1 p.2)) →
        seedSpace env path (.dict ch) (.dictArg m) =
          .ok (.dictRep (m.map (fun p => (p.1, rf p.1 p.2))))) := by
  refine ⟨fun env path ch m hk => ?_, fun env path ch t => ?_,
    fun env path ch m rf hk h => ?_⟩
  · simp only [seedSpace]
    rw [if_neg (by rw [hk]; exact Bool.noConfusion)]
  · simp only [seedSpace]
  · simp only [seedSpace]
    rw [if_pos hk, seedChildrenMap_ok env path ch rf m h]
    rfl

/-- C8 witness: `Dict({"a": A, "b": B}).seed({"a": 1, "b": 2})` seeds child
`"a"` with `1` and child `"b"` with `2` and reports both. -/
theorem dict_seed_spec_witness :
    seedSpace exSeedEnv [] (.dict [(DKey.kstr "a", exSpaceA), (DKey.kstr "b", exSpaceB)])
        (.dictArg [(DKey.kstr "a", .intArg 1), (DKey.kstr "b", .intArg 2)]) =
      .ok (.dictRep [(DKey.kstr "a", SeedReport.intRep 1),
        (DKey.kstr "b", SeedReport.intRep 2)]) := by
  have h := dict_seed_spec.2.2 exSeedEnv []
      [(DKey.kstr "a", exSpaceA), (DKey.kstr "b", exSpaceB)]
      [(DKey.kstr "a", SeedArg.intArg 1), (DKey.kstr "b", SeedArg.intArg 2)]
      (fun _ a =>
        match a with
        | .intArg n => SeedReport.intRep n
        | _ => .intRep 0)
      (by rfl)
      (by
        intro p hp
        rcases List.mem_cons.mp hp with heq | hp2
        · subst heq
          exact ⟨exSpaceA, rfl, by simp [exSpaceA, seedSpace]⟩
        rcases List.mem_cons.mp hp2 with heq | hp3
        · subst heq
          exact ⟨exSpaceB, rfl, by simp [exSpaceB, seedSpace]⟩
        · cases hp3)
  exact h

theorem flatten_range_blocks {α : Type} :
    ∀ (k p : Nat) (d : List α), d.length = k * p →
      ((List.range k).map (fun i => (d.drop (i * p)).take p)).flatten = d := by
  intro k
  induction k with
  | zero =>
      intro p d hd
      have hnil : d = [] := List.eq_nil_of_length_eq_zero (by omega)
      subst hnil
      rfl
  | succ k ih =>
      intro p d hd
      rw [List.range_succ_eq_map, List.map_cons, List.map_map, List.flatten_cons]
      have hcomp : ((fun i => (d.drop (i * p)).take p) ∘ (fun i => i + 1)) =
          (fun i => (((d.drop p).drop (i * p)).take p)) := by
        funext i
        simp only [Function.comp_apply, List.drop_drop]
        congr 2
        ring
      rw [hcomp, ih p (d.drop p) (by rw [List.length_drop, hd]; ring_nf; omega)]
      simp only [Nat.zero_mul, List.drop_zero]
      exact List.take_append_drop p d

theorem parseList_map_ok {α : Type} (f : α → Json) (g : α → List Nat × List Int) :
    ∀ l : List α, (∀ c ∈ l, parseNested (f c) = .ok (g c)) →
      parseList (l.map f) = .ok (l.map g)
  | [], _ => rfl
  | c :: l, h => by
      have hc := h c (List.mem_cons_self c l)
      have hl := parseList_map_ok f g l (fun b hb => h b (List.mem_cons_of_mem c hb))
      simp only [List.map_cons, parseList, hc, hl]
      rfl

theorem parseNested_jarr_uniform (xs : List Json) (sh' : List Nat)
    (cs : List (List Int)) (hne : cs ≠ [])
    (hps : parseList xs = .ok (cs.map (fun c => (sh', c)))) :
    parseNested (.jarr xs) = .ok (cs.length :: sh', cs.flatten) := by
  cases cs with
  | nil => cases hne rfl
  | cons c0 cs' =>
      simp only [parseNested, hps, List.map_cons, exceptBind_ok]
      rw [if_pos ?hall]
      case hall =>
        simp only [List.all_eq_true, decide_eq_true_eq]
        intro p hp
        rcases List.mem_cons.mp hp with heq | hrest
        · rw [heq]
        · obtain ⟨c, _, rfl⟩ := List.mem_map.mp hrest
          rfl
      simp only [List.length_cons, List.length_map, List.map_cons, List.map_map]
      have hsnd : (Prod.snd ∘ fun c : List Int => (sh', c)) = id := rfl
      rw [hsnd, List.map_id]

theorem parse_toNested :
    ∀ (sh : List Nat) (d : List Int), (∀ a ∈ sh, 0 < a) → d.length = sh.prod →
      (∀ x ∈ d, int8ofInt x = x) → parseNested (toNested sh d) = .ok (sh, d)
  | [], d, _, hlen, hrange => by
      cases d with
      | nil => simp at hlen
      | cons x rest =>
          simp only [List.length_cons, List.prod_nil] at hlen
          have hr : rest = [] := List.eq_nil_of_length_eq_zero (by omega)
          subst hr
          simp only [toNested, List.headD, parseNested]
          rw [hrange x (List.mem_cons_self x [])]
  | k :: sh, d, hpos, hlen, hrange => by
      have hp : 0 < sh.prod :=
        List.prod_pos (fun a ha => hpos a (List.mem_cons_of_mem _ ha))
      have hk : 0 < k := hpos k (List.mem_cons_self _ _)
      have hlen' : d.length = k * sh.prod := by
        rw [hlen, List.prod_cons]
      have hchunklen : ∀ i, i < k → ((d.drop (i * sh.prod)).take sh.prod).length = sh.prod := by
        intro i hi
        rw [List.length_take, List.length_drop, hlen']
        have hij : (i + 1) * sh.prod ≤ k * sh.prod :=
          Nat.mul_le_mul_right _ (Nat.succ_le_of_lt hi)
        rw [Nat.succ_mul] at hij
        omega
      have hparse : ∀ i ∈ List.range k,
          parseNested (toNested sh ((d.drop (i * sh.prod)).take sh.prod)) =
            .ok (sh, (d.drop (i * sh.prod)).take sh.prod) := by
        intro i hi
        refine parse_toNested sh _ (fun a ha => hpos a (List.mem_cons_of_mem _ ha))
          (hchunklen i (List.mem_range.mp hi)) (fun x hx => hrange x ?_)
        exact List.drop_subset _ _ (List.take_subset _ _ hx)
      have hps := parseList_map_ok (fun i => toNested sh ((d.drop (i * sh.prod)).take sh.prod))
        (fun i => (sh, (d.drop (i * sh.prod)).take sh.prod)) (List.range k) hparse
      have hmapeq : (List.range k).map (fun i => (sh, (d.drop (i * sh.prod)).take sh.prod)) =
          ((List.range k).map (fun i => (d.drop (i * sh.prod)).take sh.prod)).map
            (fun c => (sh, c)) := by
        rw [List.map_map]
        rfl
      rw [hmapeq] at hps
      have hne : (List.range k).map (fun i => (d.drop (i * sh.prod)).take sh.prod) ≠ [] := by
        intro h
        have := congrArg List.length h
        simp at this
        omega
      have := parseNested_jarr_uniform _ sh _ hne hps
      rw [toNested, this, List.length_map, List.length_range,
        flatten_range_blocks k sh.prod d hlen']

theorem mapME_map_ok (f : β → Except Exn γ) (e : α → β) (g : α → γ) :
    ∀ l : List α, (∀ a ∈ l, f (e a) = .ok (g a)) → mapME f (l.map e) = .ok (l.map g)
  | [], _ => rfl
  | a :: l, h => by
      have ha := h a (List.mem_cons_self a l)
      have hl := mapME_map_ok f e g l (fun b hb => h b (List.mem_cons_of_mem a hb))
      simp only [List.map_cons, mapME, ha, hl]
      rfl

theorem shapeN_pos {n : MBn} (h : wfSpace (.mb n) = true) : ∀ a ∈ n.shapeN, 0 < a := by
  simp only [wfSpace, List.all_eq_true, decide_eq_true_eq] at h
  intro a ha
  obtain ⟨b, hb, rfl⟩ := List.mem_map.mp ha
  have := h b hb
  omega

theorem memS_mb_elim {n : MBn} {s : SVal} (h : memS (.mb n) s = true) :
    ∃ d, s = .arr n.shapeN d ∧ d.length = n.shapeN.prod ∧
      ∀ x ∈ d, x = 0 ∨ x = 1 := by
  cases s with
  | dict m => simp [memS] at h
  | arr sh d =>
      simp only [memS, Bool.and_eq_true, decide_eq_true_eq, List.all_eq_true] at h
      obtain ⟨⟨hsh, hlen⟩, hval⟩ := h
      subst hsh
      refine ⟨d, rfl, hlen, fun x hx => ?_⟩
      have := hval x hx
      simp only [Bool.or_eq_true, decide_eq_true_eq] at this
      exact this

theorem mb_roundtrip (n : MBn) (hwf : wfSpace (.mb n) = true) :
    ∀ S : List SVal, (∀ s ∈ S, memS (.mb n) s = true) →
      mbFromJsonable (mbToJsonable S) = .ok S := by
  intro S hS
  have hmap := mapME_map_ok (fun x => (parseNested x).map (fun p => SVal.arr p.1 p.2))
    svalNested id S ?_
  · rw [mbToJsonable, mbFromJsonable, hmap, List.map_id]
  · intro s hs
    obtain ⟨d, rfl, hlen, hval⟩ := memS_mb_elim (hS s hs)
    have hparse := parse_toNested n.shapeN d (shapeN_pos hwf) hlen
      (fun x hx => by rcases hval x hx with rfl | rfl <;> rfl)
    simp only [svalNested, hparse]
    rfl

theorem noEmptyChildren_forall :
    ∀ {ch : List (DKey × GSpace)}, noEmptyChildren ch = true →
      ∀ p ∈ ch, noEmptyDict p.2 = true := by
  intro ch
  induction ch with
  | nil => intro _ p hp; cases hp
  | cons q rest ih =>
      intro h p hp
      obtain ⟨k, sp⟩ := q
      simp only [noEmptyChildren, Bool.and_eq_true] at h
      rcases List.mem_cons.mp hp with heq | hrest
      · subst heq; exact h.1
      · exact ih h.2 p hrest

theorem wfSValChildren_lookup {k : DKey} :
    ∀ {m : List (DKey × SVal)} {v : SVal}, wfSValChildren m = true →
      lookupKey k m = some v → wfSVal v = true := by
  intro m
  induction m with
  | nil => intro v _ hl; simp [lookupKey] at hl
  | cons q rest ih =>
      intro v h hl
      obtain ⟨k', v'⟩ := q
      simp only [wfSValChildren, Bool.and_eq_true] at h
      simp only [lookupKey] at hl
      by_cases hk : k' = k
      · rw [if_pos hk] at hl
        injection hl with hl
        subst hl
        exact h.1
      · rw [if_neg hk] at hl
        exact ih h.2 hl

theorem memChildren_lookup {k : DKey} {sp : GSpace} :
    ∀ {ch : List (DKey × GSpace)} {m : List (DKey × SVal)},
      memChildren ch m = true → (k, sp) ∈ ch →
      ∃ v, lookupKey k m = some v ∧ memS sp v = true := by
  intro ch
  induction ch with
  | nil => intro m _ hp; cases hp
  | cons q rest ih =>
      intro m h hp
      obtain ⟨k', sp'⟩ := q
      simp only [memChildren, Bool.and_eq_true] at h
      rcases List.mem_cons.mp hp with heq | hrest
      · injection heq with h1 h2
        subst h1
        subst h2
        obtain ⟨hm, _⟩ := h
        cases hl : lookupKey k m with
        | none => rw [hl] at hm; cases hm
        | some v => rw [hl] at hm; exact ⟨v, rfl, hm⟩
      · exact ih h.2 hrest

theorem memS_dict_elim {ch : List (DKey × GSpace)} {s : SVal}
    (h : memS (.dict ch) s = true) :
    ∃ m, s = .dict m ∧ keySetEq (keysOf m) (keysOf ch) = true ∧
      memChildren ch m = true := by
  cases s with
  | arr sh d => simp [memS] at h
  | dict m =>
      simp only [memS, Bool.and_eq_true] at h
      exact ⟨m, rfl, h.1, h.2⟩

theorem memS_sampleGet {ch : List (DKey × GSpace)} {s : SVal} {k : DKey} {sp : GSpace}
    (h : memS (.dict ch) s = true) (hp : (k, sp) ∈ ch) :
    memS sp (sampleGet k s) = true := by
  obtain ⟨m, rfl, _, hmc⟩ := memS_dict_elim h
  obtain ⟨v, hl, hv⟩ := memChildren_lookup hmc hp
  simp only [sampleGet, hl, Option.getD_some]
  exact hv

theorem lookup_toJChildren {k : DKey} {sp : GSpace} :
    ∀ {ch : List (DKey × GSpace)} (S : List SVal),
      keysNodup (keysOf ch) = true → (k, sp) ∈ ch →
      lookupKey k (toJChildren ch S) = some (toJsonableS sp (colKey k S)) := by
  intro ch
  induction ch with
  | nil => intro S _ hp; cases hp
  | cons q rest ih =>
      intro S hnd hp
      obtain ⟨k0, sp0⟩ := q
      simp only [keysOf, List.map_cons, keysNodup, Bool.and_eq_true, Bool.not_eq_true'] at hnd
      simp only [toJChildren, lookupKey]
      by_cases hk : k0 = k
      · subst hk
        rw [if_pos rfl]
        rcases List.mem_cons.mp hp with heq | hrest
        · injection heq with _ hsp
          subst hsp
          rfl
        · exfalso
          have : keyMem k0 (List.map Prod.fst rest) = true := by
            simp only [keyMem, List.any_eq_true, decide_eq_true_eq]
            exact ⟨k0, List.mem_map_of_mem Prod.fst hrest, rfl⟩
          rw [hnd.1] at this
          exact Bool.noConfusion this
      · rw [if_neg hk]
        rcases List.mem_cons.mp hp with heq | hrest
        · injection heq with hkk _
          exact absurd hkk.symm hk
        · exact ih S hnd.2 hrest

theorem fromJChildren_ok (j : Json) (rf : DKey × GSpace → List SVal) :
    ∀ ch : List (DKey × GSpace),
      (∀ p ∈ ch, ∃ jk, jsonGetItem j p.1 = .ok jk ∧ fromJsonableS p.2 jk = .ok (rf p)) →
      fromJChildren ch j = .ok (ch.map (fun p => (p.1, rf p)))
  | [], _ => rfl
  | q :: rest, h => by
      obtain ⟨k, sp⟩ := q
      obtain ⟨jk, hjk, hv⟩ := h (k, sp) (List.mem_cons_self _ _)
      have ht := fromJChildren_ok j rf rest (fun p hp => h p (List.mem_cons_of_mem _ hp))
      simp only [fromJChildren, hjk, hv, ht, List.map_cons, exceptBind_ok]

theorem dictRows_ok (k0 : DKey) (v0 : List SVal) (rest : List (DKey × List SVal))
    (hlen : ∀ p ∈ (k0, v0) :: rest, v0.length ≤ p.2.length) :
    dictRows ((k0, v0) :: rest) =
      .ok ((List.range v0.length).map (fun i =>
        SVal.dict (((k0, v0) :: rest).map (fun p => (p.1, p.2.getD i (SVal.dict [])))))) := by
  simp only [dictRows]
  apply mapME_ok_of_forall
  intro i hi
  have hi' := List.mem_range.mp hi
  have hrow := mapME_ok_of_forall
      (fun p : DKey × List SVal =>
        match p.2[i]? with
        | some x => Except.ok (p.1, x)
        | none => Except.error Exn.indexError)
      (fun p => (p.1, p.2.getD i (SVal.dict [])))
      ((k0, v0) :: rest)
      (fun p hp => by
        have hpl : i < p.2.length := lt_of_lt_of_le hi' (hlen p hp)
        simp only [List.getElem?_eq_getElem hpl, List.getD_eq_getElem?_getD,
          Option.getD_some])
  rw [hrow]
  rfl

theorem canonChildren_eq_map :
    ∀ (ch : List (DKey × GSpace)) (v : SVal),
      canonChildren ch v = ch.map (fun q => (q.1, canon q.2 (sampleGet q.1 v)))
  | [], _ => rfl
  | (k, sp) :: rest, v => by
      simp only [canonChildren, List.map_cons, canonChildren_eq_map rest v]

theorem map_eq_range_map {α β : Type} (f : α → β) (dflt : α) (S : List α) :
    (List.range S.length).map (fun i => f (S.getD i dflt)) = S.map f := by
  apply List.ext_getElem
  · simp
  · intro i h1 h2
    simp only [List.getElem_map, List.getElem_range]
    congr 1
    rw [List.getD_eq_getElem?_getD,
      List.getElem?_eq_getElem (by simpa using h2), Option.getD_some]

theorem keySetEq_length {a b : List DKey} (ha : keysNodup a = true)
    (hb : keysNodup b = true) (h : keySetEq a b = true) : a.length = b.length := by
  rw [keysNodup_iff] at ha hb
  have hperm : a.Perm b := by
    apply List.perm_of_nodup_nodup_toFinset_eq ha hb
    apply Finset.ext
    intro k
    simp only [List.mem_toFinset]
    simp only [keySetEq, Bool.and_eq_true, List.all_eq_true] at h
    exact ⟨fun hk => mem_of_keyMem (h.1 k hk), fun hk => mem_of_keyMem (h.2 k hk)⟩
  exact hperm.length_eq

theorem pyEqChildren_of_forall :
    ∀ (l m' : List (DKey × SVal)),
      (∀ p ∈ l, ∃ w, lookupKey p.1 m' = some w ∧ pyEqV p.2 w = true) →
      pyEqChildren l m' = true := by
  intro l m'
  induction l with
  | nil => intro _; rfl
  | cons q rest ih =>
      intro h
      obtain ⟨k, v⟩ := q
      obtain ⟨w, hw, he⟩ := h (k, v) (List.mem_cons_self _ _)
      simp only [pyEqChildren, hw, he, Bool.true_and]
      exact ih (fun p hp => h p (List.mem_cons_of_mem _ hp))

theorem pyEqV_canon :
    ∀ g : GSpace, wfSpace g = true → ∀ s : SVal, wfSVal s = true → memS g s = true →
      pyEqV (canon g s) s = true := by
  intro g
  induction g using GSpace.indOn with
  | hmb n =>
      intro _ s _ hm
      obtain ⟨d, rfl, _, _⟩ := memS_mb_elim hm
      simp [canon, pyEqV]
  | hdict ch ih =>
      intro hwf s hws hm
      obtain ⟨m, rfl, hkeys, hmc⟩ := memS_dict_elim hm
      simp only [wfSpace, Bool.and_eq_true] at hwf
      simp only [wfSVal, Bool.and_eq_true] at hws
      simp only [canon, pyEqV, Bool.and_eq_true, decide_eq_true_eq]
      constructor
      · rw [canonChildren_eq_map, List.length_map]
        have := keySetEq_length hws.1 hwf.1 hkeys
        simp only [keysOf, List.length_map] at this
        omega
      · rw [canonChildren_eq_map]
        apply pyEqChildren_of_forall
        intro p hp
        obtain ⟨q, hq, rfl⟩ := List.mem_map.mp hp
        obtain ⟨v, hl, hv⟩ := memChildren_lookup hmc (by rw [Prod.mk.eta]; exact hq)
        have hsv : sampleGet q.1 (.dict m) = v := by simp [sampleGet, hl]
        refine ⟨v, hl, ?_⟩
        rw [hsv]
        exact ih q hq (wfChildren_forall hwf.2 q hq) v
          (wfSValChildren_lookup hws.2 hl) hv

theorem rows_eq_canon (ch : List (DKey × GSpace)) (S : List SVal) :
    ∀ i, i < S.length →
      SVal.dict ((ch.map (fun p => (p.1, (colKey p.1 S).map (canon p.2)))).map
          (fun p => (p.1, p.2.getD i (SVal.dict [])))) =
        canon (.dict ch) (S.getD i (SVal.dict [])) := by
  intro i hi
  simp only [canon, List.map_map, canonChildren_eq_map]
  congr 1
  apply List.map_congr_left
  intro q _
  simp only [Function.comp_apply]
  congr 1
  have h1 : i < (colKey q.1 S).length := by simpa [colKey] using hi
  rw [List.getD_eq_getElem?_getD, List.getElem?_map, List.getElem?_eq_getElem h1]
  simp only [Option.map_some', Option.getD_some]
  congr 1
  simp only [colKey, List.getElem_map]
  rw [List.getD_eq_getElem?_getD, List.getElem?_eq_getElem hi, Option.getD_some]

theorem roundtrip_spaces :
    ∀ g : GSpace, wfSpace g = true → noEmptyDict g = true →
      ∀ S : List SVal, (∀ s ∈ S, memS g s = true) →
        fromJsonableS g (toJsonableS g S) = .ok (S.map (canon g)) := by
  intro g
  induction g using GSpace.indOn with
  | hmb n =>
      intro hwf _ S hS
      have hmr := mb_roundtrip n hwf S hS
      have hcan : S.map (canon (.mb n)) = S := by
        have hpt : ∀ s ∈ S, canon (.mb n) s = id s := fun s _ => rfl
        rw [List.map_congr_left hpt, List.map_id]
      simp only [toJsonableS, fromJsonableS]
      rw [hmr, hcan]
  | hdict ch ih =>
      intro hwf hne S hS
      simp only [wfSpace, Bool.and_eq_true] at hwf
      obtain ⟨hnd, hchw⟩ := hwf
      simp only [noEmptyDict, Bool.and_eq_true, Bool.not_eq_true'] at hne
      obtain ⟨hchne, hnec⟩ := hne
      have hchild : ∀ p ∈ ch,
          fromJsonableS p.2 (toJsonableS p.2 (colKey p.1 S)) =
            .ok ((colKey p.1 S).map (canon p.2)) := by
        intro p hp
        apply ih p hp (wfChildren_forall hchw p hp) (noEmptyChildren_forall hnec p hp)
        intro v hv
        obtain ⟨s, hsS, rfl⟩ := List.mem_map.mp hv
        exact memS_sampleGet (hS s hsS) (by rw [Prod.mk.eta]; exact hp)
      have hfc : fromJChildren ch (.jobj (toJChildren ch S)) =
          .ok (ch.map (fun p => (p.1, (colKey p.1 S).map (canon p.2)))) := by
        apply fromJChildren_ok
        intro p hp
        refine ⟨toJsonableS p.2 (colKey p.1 S), ?_, hchild p hp⟩
        simp only [jsonGetItem]
        rw [lookup_toJChildren S hnd (by rw [Prod.mk.eta]; exact hp)]
      simp only [toJsonableS, fromJsonableS]
      rw [hfc, exceptBind_ok]
      cases ch with
      | nil => simp [List.isEmpty] at hchne
      | cons q rest =>
          obtain ⟨k0, sp0⟩ := q
          have hrows := dictRows_ok k0 ((colKey k0 S).map (canon sp0))
            (rest.map (fun p => (p.1, (colKey p.1 S).map (canon p.2))))
            (by
              intro p hp
              rcases List.mem_cons.mp hp with heq | hrest
              · rw [heq]
              · obtain ⟨q', _, rfl⟩ := List.mem_map.mp hrest
                simp [colKey])
          have hstep : (((k0, sp0) :: rest).map
              (fun p => (p.1, (colKey p.1 S).map (canon p.2)))) =
              ((k0, (colKey k0 S).map (canon sp0)) ::
                rest.map (fun p => (p.1, (colKey p.1 S).map (canon p.2)))) := rfl
          rw [hstep, hrows]
          have hn0 : ((colKey k0 S).map (canon sp0)).length = S.length := by
            simp [colKey]
          rw [hn0]
          congr 1
          rw [← map_eq_range_map (canon (.dict ((k0, sp0) :: rest))) (SVal.dict []) S]
          apply List.map_congr_left
          intro i hi
          exact rows_eq_canon ((k0, sp0) :: rest) S i (List.mem_range.mp hi)

/-- C2 counterexample: for the `Dict` with zero children and the empty (hence
vacuously valid) batch, `from_jsonable(to_jsonable([]))` raises
`StopIteration` — `next(iter(dict_of_list.values()))` draws from an empty
iterator — instead of reproducing the batch. -/
theorem dict_roundtrip_counterexample :
    fromJsonableS (.dict []) (toJsonableS (.dict []) []) = .error .stopIteration := by
  rfl

/-- C2 (amended): for every `Dict` space all of whose `Dict` subspaces
(itself included) have at least one child, and every well-formed batch `S`
of samples of it (each sample a member with the Python-`dict` key-uniqueness
invariant; the empty batch included), `from_jsonable(to_jsonable(S))`
succeeds and reproduces `S` element-for-element under Python equality (the
round trip rebuilds each sample's keys in stored child order, which Python
`dict` equality ignores). -/
theorem dict_roundtrip (ch : List (DKey × GSpace)) (S : List SVal)
    (hwf : wfSpace (.dict ch) = true) (hne : noEmptyDict (.dict ch) = true)
    (hS : ∀ s ∈ S, memS (.dict ch) s = true ∧ wfSVal s = true) :
    ∃ T, fromJsonableS (.dict ch) (toJsonableS (.dict ch) S) = .ok T ∧
      T.length = S.length ∧
      ∀ i, i < S.length →
        pyEqV (T.getD i (.dict [])) (S.getD i (.dict [])) = true := by
  refine ⟨S.map (canon (.dict ch)),
    roundtrip_spaces (.dict ch) hwf hne S (fun s hs => (hS s hs).1), by simp, ?_⟩
  intro i hi
  have hT : (S.map (canon (.dict ch))).getD i (.dict []) =
      canon (.dict ch) (S.getD i (.dict [])) := by
    rw [List.getD_eq_getElem?_getD, List.getElem?_map, List.getElem?_eq_getElem hi,
      Option.map_some', Option.getD_some, List.getD_eq_getElem?_getD,
      List.getElem?_eq_getElem hi, Option.getD_some]
  rw [hT]
  have hsmem : S.getD i (.dict []) ∈ S := by
    rw [List.getD_eq_getElem?_getD, List.getElem?_eq_getElem hi, Option.getD_some]
    exact List.getElem_mem _
  exact pyEqV_canon (.dict ch) hwf _ (hS _ hsmem).2 (hS _ hsmem).1

/-- C2 witness: a one-child `Dict` with a one-sample batch. -/
theorem dict_roundtrip_witness :
    ∃ T, fromJsonableS (.dict [(DKey.kstr "a", .mb (.scalar 1))])
        (toJsonableS (.dict [(DKey.kstr "a", .mb (.scalar 1))])
          [.dict [(DKey.kstr "a", .arr [1] [1])]]) = .ok T ∧
      T.length = [SVal.dict [(DKey.kstr "a", SVal.arr [1] [1])]].length ∧
      ∀ i, i < [SVal.dict [(DKey.kstr "a", SVal.arr [1] [1])]].length →
        pyEqV (T.getD i (.dict []))
          ([SVal.dict [(DKey.kstr "a", SVal.arr [1] [1])]].getD i (.dict [])) = true :=
  dict_roundtrip [(DKey.kstr "a", .mb (.scalar 1))]
    [SVal.dict [(DKey.kstr "a", SVal.arr [1] [1])]]
    (by decide) (by decide) (by decide)

/-- C9: when the per-child batches decode to unequal lengths, no error is
raised for children (strictly) longer than the first stored child's decoded
batch: `from_jsonable` succeeds and the result is silently truncated to the
first child's decoded length, row `i` pairing each child key with element
`i` of that child's decoded batch. -/
theorem from_jsonable_truncation (ch : List (DKey × GSpace)) (j : Json)
    (k0 : DKey) (v0 : List SVal) (rest : List (DKey × List SVal))
    (hch : fromJChildren ch j = .ok ((k0, v0) :: rest))
    (hlong : ∀ p ∈ rest, v0.length ≤ p.2.length) :
    ∃ rows, fromJsonableS (.dict ch) j = .ok rows ∧
      rows.length = v0.length ∧
      ∀ i, i < v0.length → rows.getD i (.dict []) =
        .dict (((k0, v0) :: rest).map (fun p => (p.1, p.2.getD i (SVal.dict [])))) := by
  have hlen : ∀ p ∈ (k0, v0) :: rest, v0.length ≤ p.2.length := by
    intro p hp
    rcases List.mem_cons.mp hp with heq | hr
    · rw [heq]
    · exact hlong p hr
  have hrows := dictRows_ok k0 v0 rest hlen
  refine ⟨(List.range v0.length).map (fun i =>
      SVal.dict (((k0, v0) :: rest).map (fun p => (p.1, p.2.getD i (SVal.dict []))))),
    ?_, by simp, fun i hi => getD_map_range _ _ _ _ hi⟩
  simp only [fromJsonableS]
  rw [hch, exceptBind_ok, hrows]

/-- C9 witness: two one-cell `MultiBinary` children where the second child's
batch decodes to two samples but the first to one: the decoded result has
one row, with no error. -/
theorem from_jsonable_truncation_witness :
    ∃ rows, fromJsonableS
        (.dict [(DKey.kstr "a", .mb (.scalar 1)), (DKey.kstr "b", .mb (.scalar 1))])
        (.jobj [(DKey.kstr "a", .jarr [.jarr [.jint 0]]),
          (DKey.kstr "b", .jarr [.jarr [.jint 1], .jarr [.jint 0]])]) = .ok rows ∧
      rows.length = [SVal.arr [1] [0]].length ∧
      ∀ i, i < [SVal.arr [1] [0]].length → rows.getD i (.dict []) =
        .dict (((DKey.kstr "a", [SVal.arr [1] [0]]) ::
            [(DKey.kstr "b", [SVal.arr [1] [1], SVal.arr [1] [0]])]).map
          (fun p => (p.1, p.2.getD i (SVal.dict [])))) :=
  from_jsonable_truncation
    [(DKey.kstr "a", .mb (.scalar 1)), (DKey.kstr "b", .mb (.scalar 1))]
    (.jobj [(DKey.kstr "a", .jarr [.jarr [.jint 0]]),
      (DKey.kstr "b", .jarr [.jarr [.jint 1], .jarr [.jint 0]])])
    (DKey.kstr "a") [SVal.arr [1] [0]]
    [(DKey.kstr "b", [SVal.arr [1] [1], SVal.arr [1] [0]])]
    (by decide) (by decide)

/-- C10: `Dict.from_jsonable` on a `Dict` with zero children raises
`StopIteration` on every input — the per-key comprehension is empty, so the
input is never even indexed, and `next(iter(dict_of_list.values()))` draws
from an empty iterator instead of returning an empty batch. -/
theorem from_jsonable_empty_dict (j : Json) :
    fromJsonableS (.dict []) j = .error .stopIteration := by
  rfl

end GymSpec
